import Mathlib

/-!
# Verification of the KevOps work-item explorer

Shallow embedding of the core logic of `src/kevops_explore.py` and
`src/app.py`: the paginated WIQL query engine, the chunked work-item
detail fetch, the breadth-first hierarchy resolver, the stack-based
`flatten`, credential resolution, and the KPI metric aggregation.

External HTTP services are modelled as oracles: a service call is a
function from the request parameters to `Except String payload`, where
`Except.error` stands for an `HTTPError`/`URLError` (transport failure or
non-2xx response) and `Except.ok` for a parsed JSON payload.
-/

/-! ## Paginated WIQL query engine (`kevops_explore.py`) -/

/-- Constant `WIQL_BATCH` from `kevops_explore.py`: the 20 000-ID ceiling per WIQL
response page. -/
def WIQL_BATCH : Nat := 20000

/-- Constant `WI_DETAILS_BATCH` from `kevops_explore.py`: the 200-ID ceiling per
work-item details request. -/
def WI_DETAILS_BATCH : Nat := 200

/-- Embeds `_api_request` from `kevops_explore.py`.  On a successful
round-trip the parsed payload is returned with no error output.  On
`HTTPError`/`URLError` the handler `_handle_error` writes the message to
stderr (or the Streamlit UI) and `_api_request` falls through to
`return {}`: the embedding returns the designated empty payload together
with the logged message. -/
def api_request {α : Type} (resp : Except String α) (emptyPayload : α) :
    α × List String :=
  match resp with
  | .ok v => (v, [])
  | .error e => (emptyPayload, [e])

/-- The paging loop of `_paged_wiql` from `kevops_explore.py`.  `svc c`
models the WIQL round-trip for the query
`... WHERE predicate AND [System.Id] > c ORDER BY [System.Id]` with
`$top=WIQL_BATCH`, yielding the page of IDs (or a transport/HTTP error).
The loop appends each page to the accumulator, advances the cursor to the
last ID of the page, and stops when a page comes back empty.  `fuel` bounds the
number of service calls (the Python `while True` loop has no such bound;
`none` means the bound was exhausted). -/
def paged_wiql_go (svc : Int → Except String (List Int)) :
    Nat → Int → List Int → List String → Option (List Int × List String)
  | 0, _, _, _ => none
  | fuel + 1, lastId, allIds, log =>
    let (ids, newLog) := api_request (svc lastId) []
    if h : ids = [] then some (allIds, log ++ newLog)
    else paged_wiql_go svc fuel (ids.getLast h) (allIds ++ ids) (log ++ newLog)

/-- Function `_paged_wiql` from `kevops_explore.py`: page from cursor `0` with an
empty accumulator, returning all collected IDs and the error messages
written to stderr/UI along the way. -/
def paged_wiql (svc : Int → Except String (List Int)) (fuel : Nat) :
    Option (List Int × List String) :=
  paged_wiql_go svc fuel 0 [] []

/-- A WIQL service honouring its documented contract for a filter
predicate whose full match set is `allIds` (listed in increasing order):
the page for cursor `c` holds the matching IDs strictly greater than `c`,
in increasing order, capped at `top` rows. -/
def honest_page (allIds : List Int) (top : Nat) (c : Int) :
    Except String (List Int) :=
  .ok ((allIds.filter (fun i => decide (c < i))).take top)

/-! ## Chunked detail fetch (`chunk_list`, `_get_work_items`,
`fetch_details`) -/

/-- Function `chunk_list` from `app.py`: split `lst` into consecutive slices
`lst[i:i+n]` for `i = 0, n, 2n, ...`.  All call sites use `n = 200`;
`n = 0` (a `ValueError` in the Python `range`) is mapped to `[]`. -/
def chunk_list {α : Type} (lst : List α) (n : Nat) : List (List α) :=
  if h : lst.isEmpty ∨ n = 0 then []
  else lst.take n :: chunk_list (lst.drop n) n
termination_by lst.length
decreasing_by
  rcases Nat.eq_zero_or_pos n with h0 | h0
  · exact absurd (Or.inr h0) h
  · have hne : lst ≠ [] := by
      intro hl
      exact h (Or.inl (by simp [hl]))
    have hlen : 0 < lst.length := List.length_pos.mpr hne
    simpa [List.length_drop] using Nat.sub_lt hlen h0

/-- Function `_get_work_items` from `kevops_explore.py`: fetch work-item documents
in ≤200-ID chunks.  Each chunk is fetched via `_api_request`; a failed
chunk contributes the empty payload (`{}`, hence no `value` entries) and
its logged error message, and the loop continues with the next chunk. -/
def get_work_items {α : Type} (svc : List Int → Except String (List α))
    (ids : List Int) : List α × List String :=
  if ids.isEmpty then ([], [])
  else
    (chunk_list ids WI_DETAILS_BATCH).foldl
      (fun acc chunk =>
        let (v, lg) := api_request (svc chunk) []
        (acc.1 ++ v, acc.2 ++ lg))
      ([], [])

/-- The chunk loop of `fetch_details` from `app.py`, where
`r.raise_for_status()` raises on a non-2xx response: a failing chunk
aborts the whole loop with that error (Python exception propagation),
otherwise the per-chunk records are concatenated in chunk order. -/
def fetch_chunks {α : Type} (svc : List Int → Except String (List α)) :
    List (List Int) → Except String (List α)
  | [] => .ok []
  | c :: cs =>
    match svc c with
    | .error e => .error e
    | .ok items =>
      match fetch_chunks svc cs with
      | .error e => .error e
      | .ok rest => .ok (items ++ rest)

/-- Function `fetch_details` from `app.py` (detail retrieval only; the pandas
DataFrame wrapping and field projection are presentation): an empty ID
list returns an empty result without any service call, otherwise the IDs
are fetched in 200-ID chunks via `fetch_chunks`. -/
def fetch_details {α : Type} (svc : List Int → Except String (List α))
    (ids : List Int) : Except String (List α) :=
  if ids.isEmpty then .ok []
  else fetch_chunks svc (chunk_list ids WI_DETAILS_BATCH)

/-- Returns `true` exactly on `Except.error`, modelling a raised Python exception. -/
def isErr {ε α : Type} : Except ε α → Bool
  | .error _ => true
  | .ok _ => false

/-! ## Hierarchy resolver (`build_hierarchy`, `flatten` in `app.py`) -/

/-- One relation entry of a work item as returned by the service with
`$expand=relations`: the relation kind and the (optional) target URL. -/
structure WiRel where
  rel : String
  url : Option String
deriving DecidableEq, Repr

/-- The characters after the last slash of `s` (all of `s` when it has no
slash): models the Python expression rsplit applied to `s` with separator
slash and maxsplit 1, last component. -/
def last_segment (s : String) : String :=
  String.mk (s.toList.foldl (fun acc c => if c = '/' then [] else acc ++ [c]) [])

/-- Decimal digit run to a number: `none` unless the character list is
nonempty and all digits. -/
def digits_to_nat (cs : List Char) : Option Nat :=
  if cs ≠ [] ∧ cs.all (·.isDigit) then
    some (cs.foldl (fun a c => a * 10 + (c.toNat - 48)) 0)
  else none

/-- Models the Python builtin `int` applied to a string: strip surrounding whitespace,
accept an optional sign followed by decimal digits, raise (`none`)
otherwise.  (Digit-separator underscores, which cannot occur in the URL
tails at issue, are not modelled.) -/
def py_int (s : String) : Option Int :=
  let cs := (((s.toList.dropWhile (·.isWhitespace)).reverse.dropWhile
      (·.isWhitespace)).reverse)
  match cs with
  | '-' :: rest => (digits_to_nat rest).map (fun n => -(n : Int))
  | '+' :: rest => (digits_to_nat rest).map (fun n => (n : Int))
  | _ => (digits_to_nat cs).map (fun n => (n : Int))

/-- The target-ID parse in `build_hierarchy` (`app.py`):
the builtin `int` applied to the trailing path segment of the relation
URL, where a missing/`None` URL
(`AttributeError`) or a non-numeric trailing segment (`ValueError`) is
caught and yields no ID. -/
def link_target (url : Option String) : Option Int :=
  match url with
  | none => none
  | some s => py_int (last_segment s)

/-- The per-item child extraction of `build_hierarchy` (`app.py`): keep
the relations flagged `System.LinkTypes.Hierarchy-Forward`, parse each
target from the trailing path segment of its URL, and silently skip the ones
that do not parse. -/
def hier_targets (rels : List WiRel) : List Int :=
  (rels.filter (fun r => r.rel == "System.LinkTypes.Hierarchy-Forward")).filterMap
    (fun r => link_target r.url)

/-- The mutable traversal state of `build_hierarchy` (`app.py`):
the `children` adjacency (a `defaultdict(list)`), the `seen` set (kept as
the list of elements in insertion order) and the FIFO `queue`. -/
structure HState where
  children : Int → List Int
  seen : List Int
  queue : List Int

/-- The body of the inner relation loop of `build_hierarchy` for one
parsed child `cid` of parent `pid`: record the edge
(`children[pid].append(cid)`), and if `cid` is unseen, mark it seen and
enqueue it. -/
def step_pair (st : HState) (p : Int × Int) : HState :=
  { children := fun x => if x = p.1 then st.children x ++ [p.2] else st.children x
    seen := if p.2 ∈ st.seen then st.seen else st.seen ++ [p.2]
    queue := if p.2 ∈ st.seen then st.queue else st.queue ++ [p.2] }

/-- Processing of one work item of a batch response in `build_hierarchy`:
iterate over its hierarchy-forward relations with parseable targets. -/
def process_work_item (st : HState) (pid : Int) (rels : List WiRel) : HState :=
  ((hier_targets rels).map (fun cid => (pid, cid))).foldl step_pair st

/-- Processing of one batch response in `build_hierarchy`: the service is
modelled by `items`, giving the relation list of each work item; the
response to a batch request lists the items of the batch in order. -/
def process_batch (items : Int → List WiRel) (st : HState) (batch : List Int) :
    HState :=
  batch.foldl (fun st pid => process_work_item st pid (items pid)) st

/-- The `while queue` loop of `build_hierarchy` (`app.py`): dequeue a
batch of up to 200 items, fetch them with relations expanded, record
edges and enqueue unseen children.  `fuel` bounds the number of
iterations (`none` when exhausted with a nonempty queue). -/
def build_hierarchy_go (items : Int → List WiRel) :
    Nat → HState → Option HState
  | 0, st => if st.queue.isEmpty then some st else none
  | fuel + 1, st =>
    if st.queue.isEmpty then some st
    else
      let n := min 200 st.queue.length
      let batch := st.queue.take n
      let st1 := process_batch items { st with queue := st.queue.drop n } batch
      build_hierarchy_go items fuel st1

/-- Function `build_hierarchy` from `app.py` (final state form): start with
`seen = {root_id}` and `queue = deque([root_id])` and an empty
`children` map. -/
def build_hierarchy_state (items : Int → List WiRel) (root : Int)
    (fuel : Nat) : Option HState :=
  build_hierarchy_go items fuel ⟨fun _ => [], [root], [root]⟩

/-- Function `build_hierarchy` from `app.py`: the returned `children` adjacency. -/
def build_hierarchy (items : Int → List WiRel) (root : Int) (fuel : Nat) :
    Option (Int → List Int) :=
  (build_hierarchy_state items root fuel).map (·.children)

/-- The `while stack` loop of `flatten` (`app.py`): pop the last element,
append it to the result, push its children (`children_map.get(cid, [])`).
No seen-set is consulted.  `fuel` bounds the iterations (`none` when
exhausted with a nonempty stack). -/
def flatten_go (cmap : Int → List Int) :
    Nat → List Int → List Int → Option (List Int)
  | 0, res, stack => if stack.isEmpty then some res else none
  | fuel + 1, res, stack =>
    if h : stack = [] then some res
    else
      flatten_go cmap fuel (res ++ [stack.getLast h])
        (stack.dropLast ++ cmap (stack.getLast h))

/-- Function `flatten` from `app.py`: the stack starts as the child list of the root. -/
def flatten (cmap : Int → List Int) (root : Int) (fuel : Nat) :
    Option (List Int) :=
  flatten_go cmap fuel [] (cmap root)

/-- The parent→child edge relation of an adjacency map. -/
def child_edge (cmap : Int → List Int) (a b : Int) : Prop := b ∈ cmap a

/-! ## Credential resolution (`_resolve_credentials` in
`kevops_explore.py`) -/

/-- Python truthiness of an optional string: `None` and `""` are falsy. -/
def py_truthy : Option String → Bool
  | none => false
  | some s => !s.isEmpty

/-- Models the Python expression `a or b` on optional strings: `b` when `a` is falsy. -/
def py_or (a b : Option String) : Option String :=
  if py_truthy a then a else b

/-- The per-credential layering in `_resolve_credentials`
(`kevops_explore.py`): CLI argument, else environment variable, and —
when Streamlit is importable (`stPresent`) — else the top-level secret,
else the `azure` section secret.  (The defensive `try/except` around the
secrets access models its normal path.) -/
def resolve_one (stPresent : Bool) (arg env sTop sAz : Option String) :
    Option String :=
  let v := py_or arg env
  if stPresent then py_or (py_or v sTop) sAz else v

/-- The resolution phase of `_resolve_credentials` for the three
credentials (organization URL, project, access token), each from its own
argument/environment/secret sources. -/
def resolved_triple (stPresent : Bool)
    (argOrg envOrg sTopOrg sAzOrg : Option String)
    (argProj envProj sTopProj sAzProj : Option String)
    (argPat envPat sTopPat sAzPat : Option String) :
    Option String × Option String × Option String :=
  (resolve_one stPresent argOrg envOrg sTopOrg sAzOrg,
   resolve_one stPresent argProj envProj sTopProj sAzProj,
   resolve_one stPresent argPat envPat sTopPat sAzPat)

/-- The error message of the `SystemExit` raised by
`_resolve_credentials` when a credential is still missing. -/
def missing_creds_msg : String :=
  "organization_url, project, and pat must be provided via arguments, environment variables, or Streamlit secrets."

/-- The final check of `_resolve_credentials`:
`if not all([org_url, project, pat]): raise SystemExit(...)`.  `SystemExit`
with a string argument is modelled as `Except.error` carrying the
message; Python prints that message to stderr and exits with code 1. -/
def resolve_credentials (triple : Option String × Option String × Option String) :
    Except String (Option String × Option String × Option String) :=
  if py_truthy triple.1 && py_truthy triple.2.1 && py_truthy triple.2.2 then
    .ok triple
  else .error missing_creds_msg

/-- The stderr lines produced by a `SystemExit` outcome (Python prints
the `SystemExit` message to standard error). -/
def stderr_of {α : Type} : Except String α → List String
  | .error m => [m]
  | .ok _ => []

/-- The process exit code of a `SystemExit` outcome (Python exits with
code 1 when `SystemExit` carries a string message, 0 otherwise). -/
def exit_code {α : Type} : Except String α → Nat
  | .error _ => 1
  | .ok _ => 0

/-- Function `main` (`kevops_explore.py`) up to the point where network traffic
can occur, paired with the number of HTTP requests issued: credential
resolution happens first and a `SystemExit` there stops the run with zero
network calls; on success the task query issues its (positive) number of
calls, abstracted as `fetchCalls`. -/
def main_network_calls
    (triple : Option String × Option String × Option String)
    (fetchCalls : Nat) : Except String Unit × Nat :=
  match resolve_credentials triple with
  | .error m => (.error m, 0)
  | .ok _ => (.ok (), fetchCalls)

/-! ## Metric aggregation (`app.py`, KPI block) -/

/-- The fields of one detail record relevant to the KPI claims: the
work-item state, and the created/last-changed timestamps in seconds. -/
structure Detail where
  state : String
  created : Int
  changed : Int
deriving DecidableEq, Repr

/-- Constant `FINAL_STATES` from `app.py`. -/
def FINAL_STATES : List String := ["Closed", "Removed", "Resolved"]

/-- Models the Python builtin `round` to the nearest integer with ties to
even (banker rounding), on exact rationals. -/
def py_round_int (q : ℚ) : Int :=
  let f := ⌊q⌋
  let r := q - (f : ℚ)
  if r < 1 / 2 then f
  else if 1 / 2 < r then f + 1
  else if f % 2 = 0 then f else f + 1

/-- Models the Python call `round(x, 1)`: one decimal digit, ties to even. -/
def py_round1 (q : ℚ) : ℚ := (py_round_int (q * 10) : ℚ) / 10

/-- Value `closed_cnt` from `app.py`: the sum of the isin-`FINAL_STATES` mask over the State column. -/
def closed_cnt (df : List Detail) : Nat :=
  (df.filter (fun it => FINAL_STATES.contains it.state)).length

/-- Value `open_cnt` from `app.py`: `total - closed_cnt`. -/
def open_cnt (df : List Detail) : Nat := df.length - closed_cnt df

/-- Value `pct` from `app.py`:
`round((closed_cnt / total * 100), 1) if total else 0`. -/
def pct (df : List Detail) : ℚ :=
  if df.length ≠ 0 then
    py_round1 ((closed_cnt df : ℚ) / (df.length : ℚ) * 100)
  else 0

/-- One entry of the `cycle` series in `app.py`: the difference between
the last-changed and created timestamps taken as whole days — the
timedelta day count, floor division as in pandas. -/
def cycle_days (it : Detail) : Int := (it.changed - it.created).fdiv 86400

/-- Value `avg_cycle` from `app.py`:
`round(cycle.mean(), 1) if not cycle.empty else 0`, where `cycle` is the
per-item whole-day difference between last-changed and created. -/
def avg_cycle (df : List Detail) : ℚ :=
  let cycle := df.map cycle_days
  if cycle.isEmpty then 0
  else py_round1 (((cycle.map (fun i => (i : ℚ))).sum) / (cycle.length : ℚ))

/-- Termination measure for the BFS of `build_hierarchy`: the number of
candidate IDs of the finite universe `U` not yet seen, plus the queue
length.  Dequeuing shrinks the queue; enqueuing is always paid for by a
previously unseen `U`-element entering `seen`. -/
def hier_measure (U : List Int) (st : HState) : Nat :=
  (U.filter (fun u => decide (u ∉ st.seen))).length + st.queue.length

/-- A cyclic two-node relation graph: work item 1 links forward to 2 and
work item 2 links forward back to 1. -/
def cyc_items : Int → List WiRel :=
  fun pid =>
    if pid = 1 then
      [{ rel := "System.LinkTypes.Hierarchy-Forward", url := some "wit/2" }]
    else if pid = 2 then
      [{ rel := "System.LinkTypes.Hierarchy-Forward", url := some "wit/1" }]
    else []

/-- A well-formed forward hierarchy link, targeting work item 2. -/
def good_rel : WiRel :=
  { rel := "System.LinkTypes.Hierarchy-Forward", url := some "wit/2" }

/-- A forward hierarchy link whose URL trailing segment is not numeric. -/
def bad_rel : WiRel :=
  { rel := "System.LinkTypes.Hierarchy-Forward", url := some "wit/abc" }

/-- The initial traversal state for root 1. -/
def st_root1 : HState :=
  { children := fun _ => [], seen := [1], queue := [] }

/-- The four-item detail set of the specification example:
states Closed, Active, Active, Removed. -/
def ex_details : List Detail :=
  [{ state := "Closed", created := 0, changed := 0 },
   { state := "Active", created := 0, changed := 0 },
   { state := "Active", created := 0, changed := 0 },
   { state := "Removed", created := 0, changed := 0 }]

/-- An open (Active) item whose last change is 10 days after creation. -/
def ex_open_item : Detail := { state := "Active", created := 0, changed := 864000 }

/-- A closed item whose last change is 2 days after creation. -/
def ex_closed_item : Detail := { state := "Closed", created := 0, changed := 172800 }

/-- Termination potential for the `flatten` stack: each stack entry
contributes `(B+1)^rank`, where `B` bounds the branching and `rank`
decreases along every edge of the reachable subgraph. -/
def flatten_potential (rank : Int → Nat) (B : Nat) (stack : List Int) : Nat :=
  (stack.map (fun x => (B + 1) ^ (rank x))).sum

/-- A self-loop adjacency: every node has the single child 1. -/
def loop_cmap : Int → List Int := fun _ => [1]

/-- A small acyclic adjacency: 1 → {2, 3}, 2 → {4}. -/
def ex_cmap : Int → List Int :=
  fun a => if a = 1 then [2, 3] else if a = 2 then [4] else []

/-- A rank function witnessing the acyclicity of `ex_cmap`. -/
def ex_rank : Int → Nat := fun a => if a = 1 then 2 else if a = 2 then 1 else 0

/-! ## Concrete service oracles used in witnesses and counterexamples -/

/-- A WIQL service whose first page (cursor `0`) is `[1, 2, 3]` and whose
every later call fails with an HTTP error. -/
def svc_err_page : Int → Except String (List Int) :=
  fun c =>
    if c = 0 then .ok [1, 2, 3]
    else .error "HTTP error 503: Service Unavailable"

/-- A detail service whose every call fails with an HTTP error. -/
def svc_err_detail : List Int → Except String (List Int) :=
  fun _ => .error "HTTP error 500: Internal Server Error"

/-! ## Helper lemmas about `chunk_list` and `fetch_chunks` -/

theorem chunk_list_nil {α : Type} (n : Nat) : chunk_list ([] : List α) n = [] := by
  simp [chunk_list]

theorem chunk_list_cons {α : Type} (lst : List α) (n : Nat) (hl : lst ≠ [])
    (hn : n ≠ 0) : chunk_list lst n = lst.take n :: chunk_list (lst.drop n) n := by
  rw [chunk_list]
  simp [hl, hn]

theorem chunk_list_length_aux {α : Type} (n : Nat) (hn : 0 < n) :
    ∀ (k : Nat) (lst : List α), lst.length ≤ k →
      (chunk_list lst n).length = (lst.length + n - 1) / n := by
  intro k
  induction k with
  | zero =>
    intro lst hl
    have he : lst = [] := List.eq_nil_of_length_eq_zero (Nat.le_zero.mp hl)
    subst he
    rw [chunk_list_nil]
    simp only [List.length_nil]
    rw [Nat.div_eq_of_lt (by omega)]
  | succ k ih =>
    intro lst hl
    by_cases he : lst = []
    · subst he
      rw [chunk_list_nil]
      simp only [List.length_nil]
      rw [Nat.div_eq_of_lt (by omega)]
    · rw [chunk_list_cons lst n he (by omega)]
      have hlen : 0 < lst.length := List.length_pos.mpr he
      have hdk : (lst.drop n).length ≤ k := by
        rw [List.length_drop]; omega
      rw [List.length_cons, ih (lst.drop n) hdk, List.length_drop]
      rcases le_or_lt lst.length n with hle | hlt
      · have h1 : lst.length - n = 0 := by omega
        rw [h1, Nat.div_eq_of_lt (by omega)]
        have h2 : lst.length + n - 1 < 2 * n := by omega
        have h3 : 1 * n ≤ lst.length + n - 1 := by omega
        rw [Nat.div_eq_of_lt_le h3 (by omega)]
      · have h2 : lst.length - n + n - 1 = lst.length - 1 := by omega
        have h3 : lst.length + n - 1 = (lst.length - 1) + n := by omega
        rw [h2, h3, Nat.add_div_right _ hn]

theorem chunk_list_length {α : Type} (lst : List α) (n : Nat) (hn : 0 < n) :
    (chunk_list lst n).length = (lst.length + n - 1) / n :=
  chunk_list_length_aux n hn lst.length lst le_rfl

theorem chunk_list_flatten_aux {α : Type} (n : Nat) (hn : 0 < n) :
    ∀ (k : Nat) (lst : List α), lst.length ≤ k →
      (chunk_list lst n).flatten = lst := by
  intro k
  induction k with
  | zero =>
    intro lst hl
    have he : lst = [] := List.eq_nil_of_length_eq_zero (Nat.le_zero.mp hl)
    subst he
    rw [chunk_list_nil]; rfl
  | succ k ih =>
    intro lst hl
    by_cases he : lst = []
    · subst he; rw [chunk_list_nil]; rfl
    · rw [chunk_list_cons lst n he (by omega)]
      have hlen : 0 < lst.length := List.length_pos.mpr he
      have hdk : (lst.drop n).length ≤ k := by
        rw [List.length_drop]; omega
      rw [List.flatten_cons, ih (lst.drop n) hdk, List.take_append_drop]

theorem chunk_list_flatten {α : Type} (lst : List α) (n : Nat) (hn : 0 < n) :
    (chunk_list lst n).flatten = lst :=
  chunk_list_flatten_aux n hn lst.length lst le_rfl

theorem chunk_list_mem_aux {α : Type} (n : Nat) (hn : 0 < n) :
    ∀ (k : Nat) (lst : List α), lst.length ≤ k →
      ∀ c ∈ chunk_list lst n, c.length ≤ n ∧ c ≠ [] := by
  intro k
  induction k with
  | zero =>
    intro lst hl c hc
    have he : lst = [] := List.eq_nil_of_length_eq_zero (Nat.le_zero.mp hl)
    subst he
    rw [chunk_list_nil] at hc
    exact absurd hc (List.not_mem_nil c)
  | succ k ih =>
    intro lst hl c hc
    by_cases he : lst = []
    · subst he
      rw [chunk_list_nil] at hc
      exact absurd hc (List.not_mem_nil c)
    · rw [chunk_list_cons lst n he (by omega)] at hc
      have hlen : 0 < lst.length := List.length_pos.mpr he
      rcases List.mem_cons.mp hc with hh | ht
      · subst hh
        constructor
        · rw [List.length_take]; omega
        · intro htn
          have : (lst.take n).length = 0 := by rw [htn]; rfl
          rw [List.length_take] at this
          omega
      · have hdk : (lst.drop n).length ≤ k := by
          rw [List.length_drop]; omega
        exact ih (lst.drop n) hdk c ht

theorem chunk_list_mem {α : Type} (lst : List α) (n : Nat) (hn : 0 < n) :
    ∀ c ∈ chunk_list lst n, c.length ≤ n ∧ c ≠ [] :=
  chunk_list_mem_aux n hn lst.length lst le_rfl

theorem fetch_chunks_ok {α : Type} (svc : List Int → List α) :
    ∀ l : List (List Int),
      fetch_chunks (fun c => .ok (svc c)) l = .ok (l.map svc).flatten := by
  intro l
  induction l with
  | nil => rfl
  | cons c cs ih => simp [fetch_chunks, ih]

theorem fetch_chunks_err {α : Type} (svc : List Int → Except String (List α)) :
    ∀ l : List (List Int), (∃ c ∈ l, isErr (svc c) = true) →
      isErr (fetch_chunks svc l) = true := by
  intro l
  induction l with
  | nil =>
    rintro ⟨c, hc, _⟩
    exact absurd hc (List.not_mem_nil c)
  | cons c cs ih =>
    rintro ⟨d, hd, hderr⟩
    rcases List.mem_cons.mp hd with rfl | hdt
    · cases hsv : svc d with
      | error e => simp [fetch_chunks, hsv, isErr]
      | ok v => rw [hsv] at hderr; simp [isErr] at hderr
    · cases hsv : svc c with
      | error e => simp [fetch_chunks, hsv, isErr]
      | ok v =>
        have hrec := ih ⟨d, hdt, hderr⟩
        cases hfc : fetch_chunks svc cs with
        | error e => simp [fetch_chunks, hsv, hfc, isErr]
        | ok rest => rw [hfc] at hrec; simp [isErr] at hrec

/-- Claim C4: for every list of N work-item IDs, the detail fetch issues
exactly ceil(N/200) batch calls (one per chunk), each over a consecutive
chunk of at most 200 IDs whose concatenation in order is the original
list, and concatenates the per-chunk results preserving chunk order; for
the empty ID list it returns an empty result from zero chunks. -/
theorem fetch_details_chunking {α : Type} (svc : List Int → List α)
    (ids : List Int) :
    (chunk_list ids WI_DETAILS_BATCH).length = (ids.length + 199) / 200
    ∧ (∀ c ∈ chunk_list ids WI_DETAILS_BATCH, c.length ≤ 200 ∧ c ≠ [])
    ∧ (chunk_list ids WI_DETAILS_BATCH).flatten = ids
    ∧ fetch_details (fun c => .ok (svc c)) ids
        = .ok ((chunk_list ids WI_DETAILS_BATCH).map svc).flatten
    ∧ fetch_details (fun c => .ok (svc c)) ([] : List Int) = .ok []
    ∧ chunk_list ([] : List Int) WI_DETAILS_BATCH = [] := by
  have h200 : (0 : Nat) < WI_DETAILS_BATCH := by decide
  refine ⟨?_, ?_, ?_, ?_, ?_, ?_⟩
  · rw [chunk_list_length ids WI_DETAILS_BATCH h200]
    rfl
  · exact chunk_list_mem ids WI_DETAILS_BATCH h200
  · exact chunk_list_flatten ids WI_DETAILS_BATCH h200
  · by_cases he : ids = []
    · subst he
      simp [fetch_details, chunk_list_nil]
    · have : ids.isEmpty = false := by simp [he]
      rw [fetch_details, if_neg (by simp [this])]
      exact fetch_chunks_ok svc _
  · simp [fetch_details]
  · exact chunk_list_nil _

/-- Witness for C4 at a concrete input: three IDs fit in a single chunk
and the fetch returns exactly that chunk payload. -/
theorem fetch_details_chunking_witness :
    chunk_list ([1, 2, 3] : List Int) WI_DETAILS_BATCH = [[1, 2, 3]]
    ∧ fetch_details (fun c => .ok c) ([1, 2, 3] : List Int)
        = .ok ([1, 2, 3] : List Int) := by
  have h := fetch_details_chunking (fun c => c) ([1, 2, 3] : List Int)
  have hc : chunk_list ([1, 2, 3] : List Int) WI_DETAILS_BATCH = [[1, 2, 3]] := by
    rw [chunk_list_cons _ _ (by simp) (by decide)]
    simp [chunk_list_nil, WI_DETAILS_BATCH]
  refine ⟨hc, ?_⟩
  rw [h.2.2.2.1, hc]
  rfl

/-! ## Helper lemmas for the paging loop -/

theorem length_filter_lt_of_imp {α : Type} (l : List α) (p q : α → Bool)
    (hpq : ∀ a, p a = true → q a = true) (a : α) (ha : a ∈ l)
    (hqa : q a = true) (hpa : p a = false) :
    (l.filter p).length < (l.filter q).length := by
  have hsub : List.Sublist (l.filter p) (l.filter q) :=
    List.monotone_filter_right l hpq
  refine Nat.lt_of_le_of_ne hsub.length_le ?_
  intro heq
  have hEq := hsub.eq_of_length heq
  have haq : a ∈ l.filter q := List.mem_filter.mpr ⟨ha, hqa⟩
  rw [← hEq] at haq
  have : p a = true := (List.mem_filter.mp haq).2
  rw [this] at hpa
  exact Bool.noConfusion hpa

theorem pairwise_le_getLast {l : List Int} (hp : l.Pairwise (· < ·))
    (h : l ≠ []) : ∀ x ∈ l, x ≤ l.getLast h := by
  intro x hx
  have hsplit := List.dropLast_append_getLast h
  rw [← hsplit] at hp hx
  rcases List.mem_append.mp hx with hx1 | hx2
  · have := (List.pairwise_append.mp hp).2.2 x hx1 (l.getLast h) (by simp)
    exact le_of_lt this
  · rw [List.mem_singleton.mp hx2]

theorem sorted_filter_advance (allIds F : List Int) (c : Int) (B : Nat)
    (hp : allIds.Pairwise (· < ·))
    (hF : F = allIds.filter (fun i => decide (c < i)))
    (h1 : F.take B ≠ []) (L : Int) (hL : L = (F.take B).getLast h1) :
    allIds.filter (fun i => decide (L < i)) = F.drop B := by
  have hFp : F.Pairwise (· < ·) := by
    rw [hF]; exact hp.filter _
  have hLF : L ∈ F := List.take_subset B F (hL ▸ List.getLast_mem h1)
  have hcL : c < L := by
    rw [hF] at hLF
    have := (List.mem_filter.mp hLF).2
    exact of_decide_eq_true this
  have step1 : allIds.filter (fun i => decide (L < i))
      = F.filter (fun i => decide (L < i)) := by
    rw [hF, List.filter_filter]
    refine (List.filter_congr ?_).symm
    intro a _
    by_cases hla : L < a
    · have hca : c < a := lt_trans hcL hla
      simp [hla, hca]
    · simp [hla]
  have hsplitF : F.take B ++ F.drop B = F := List.take_append_drop B F
  have hpair := List.pairwise_append.mp (hsplitF ▸ hFp)
  have step2 : (F.take B).filter (fun i => decide (L < i)) = [] := by
    rw [List.filter_eq_nil_iff]
    intro a haT
    have hle : a ≤ L := hL ▸ pairwise_le_getLast (hFp.sublist (List.take_sublist B F)) h1 a haT
    simp [not_lt_of_le hle]
  have step3 : (F.drop B).filter (fun i => decide (L < i)) = F.drop B := by
    rw [List.filter_eq_self]
    intro a haD
    have hlt : L < a := hpair.2.2 L (hL ▸ List.getLast_mem h1) a haD
    exact decide_eq_true hlt
  rw [step1]
  conv_lhs => rw [← hsplitF]
  rw [List.filter_append, step2, step3, List.nil_append]

theorem paged_wiql_go_honest (allIds : List Int)
    (hp : allIds.Pairwise (· < ·)) (B : Nat) (hB : 0 < B) :
    ∀ (fuel : Nat) (c : Int) (acc : List Int) (log : List String),
      (allIds.filter (fun i => decide (c < i))).length < fuel →
      paged_wiql_go (honest_page allIds B) fuel c acc log
        = some (acc ++ allIds.filter (fun i => decide (c < i)), log) := by
  intro fuel
  induction fuel with
  | zero => intro c acc log h; omega
  | succ fuel ih =>
    intro c acc log hlt
    rw [paged_wiql_go]
    show (if h : (allIds.filter (fun i => decide (c < i))).take B = [] then
        some (acc, log ++ []) else _) = _
    by_cases hemp : (allIds.filter (fun i => decide (c < i))).take B = []
    · rw [dif_pos hemp]
      have hFnil : allIds.filter (fun i => decide (c < i)) = [] := by
        rcases List.take_eq_nil_iff.mp hemp with h0 | h0
        · omega
        · exact h0
      rw [hFnil, List.append_nil, List.append_nil]
    · rw [dif_neg hemp]
      have hFne : allIds.filter (fun i => decide (c < i)) ≠ [] := by
        intro h0
        exact hemp (by rw [h0, List.take_nil])
      have hadv := sorted_filter_advance allIds _ c B hp rfl hemp
        (((allIds.filter (fun i => decide (c < i))).take B).getLast hemp) rfl
      have hrec : (allIds.filter (fun i =>
          decide (((allIds.filter (fun i => decide (c < i))).take B).getLast hemp < i))).length < fuel := by
        rw [hadv, List.length_drop]
        have h1 : 0 < (allIds.filter (fun i => decide (c < i))).length :=
          List.length_pos.mpr hFne
        omega
      rw [ih _ _ _ hrec, hadv, List.append_nil]
      rw [List.append_assoc, List.take_append_drop]

/-- Claim C1: for every filter predicate — abstracted by its full match
set `allIds`, listed in strictly increasing order with the strictly
positive IDs the service assigns — `_paged_wiql` against a service
honouring the documented paging contract (each page holds the matching
IDs strictly greater than the cursor, in increasing order, capped at
`WIQL_BATCH = 20000`) terminates within `|allIds| + 1` calls and returns
exactly `allIds`: every matching ID exactly once, none skipped, none
duplicated, with no errors logged.  The cursor advances to the last ID of
each page and paging stops exactly on the first empty page (both are wired
into `paged_wiql_go`). -/
theorem paged_wiql_exactly_once (allIds : List Int)
    (hp : allIds.Pairwise (· < ·)) (hpos : ∀ i ∈ allIds, 0 < i) :
    paged_wiql (honest_page allIds WIQL_BATCH) (allIds.length + 1)
      = some (allIds, []) := by
  have hfilter : allIds.filter (fun i => decide ((0 : Int) < i)) = allIds := by
    rw [List.filter_eq_self]
    intro a ha
    exact decide_eq_true (hpos a ha)
  have hlen : (allIds.filter (fun i => decide ((0 : Int) < i))).length
      < allIds.length + 1 := by
    rw [hfilter]; omega
  rw [paged_wiql,
    paged_wiql_go_honest allIds hp WIQL_BATCH (by decide) _ 0 [] [] hlen,
    hfilter, List.nil_append]

/-- Witness for C1: the match set `[1, 2, 3]` is returned exactly once
each, with an empty error log. -/
theorem paged_wiql_exactly_once_witness :
    ([1, 2, 3] : List Int).Pairwise (· < ·)
    ∧ paged_wiql (honest_page [1, 2, 3] WIQL_BATCH) 4 = some ([1, 2, 3], []) :=
  ⟨by decide, paged_wiql_exactly_once [1, 2, 3] (by decide) (by decide)⟩

/-- Claim C2, counterexample: in `kevops_explore.py` an HTTP failure does
not abort the operation.  With a service whose second page request fails,
`_paged_wiql` consumes the error (which `_handle_error` only writes to
stderr/UI — the nonempty log), takes the resulting empty payload as the
end of paging, and returns the IDs gathered so far as an ordinary,
successful-looking result: the caller receives `[1, 2, 3]` with no error
signal, contradicting "the entire operation aborts and the error is
surfaced to the caller — no partial result set is returned as if it were
complete". -/
theorem paged_wiql_error_not_aborted :
    paged_wiql svc_err_page 5
      = some ([1, 2, 3], ["HTTP error 503: Service Unavailable"])
    ∧ ["HTTP error 503: Service Unavailable"] ≠ ([] : List String)
    ∧ ([1, 2, 3] : List Int) ≠ [] := by
  refine ⟨?_, by simp, by simp⟩
  rfl

/-- Claim C2, amended: in `app.py`, a transport/HTTP failure of any chunk
of the detail fetch aborts the whole retrieval (exception propagation
through `raise_for_status`), so no partial result is presented there.  In
`kevops_explore.py`, however, `_api_request` surfaces the error only to
stderr/UI and returns an empty payload, so the enclosing operation
continues and can deliver a partial result (see the counterexample). -/
theorem error_propagation_amended {α : Type}
    (svc : List Int → Except String (List α)) (ids : List Int) :
    ((∃ c ∈ chunk_list ids WI_DETAILS_BATCH, isErr (svc c) = true) →
      isErr (fetch_details svc ids) = true)
    ∧ (∀ e : String,
        api_request (Except.error e : Except String (List Int)) [] = ([], [e]))
    ∧ (∀ v : List Int,
        api_request (Except.ok v : Except String (List Int)) [] = (v, [])) := by
  refine ⟨?_, fun e => rfl, fun v => rfl⟩
  rintro ⟨c, hc, hcerr⟩
  have hne : ids ≠ [] := by
    intro h0
    subst h0
    rw [chunk_list_nil] at hc
    exact absurd hc (List.not_mem_nil c)
  rw [fetch_details, if_neg (by simp [hne])]
  exact fetch_chunks_err svc _ ⟨c, hc, hcerr⟩

/-- Witness for the amended C2: a one-chunk fetch against an
always-failing service yields an aborted (error) retrieval in the
`app.py` model. -/
theorem error_propagation_amended_witness :
    (∃ c ∈ chunk_list ([5] : List Int) WI_DETAILS_BATCH,
      isErr (svc_err_detail c) = true)
    ∧ isErr (fetch_details svc_err_detail [5]) = true := by
  have hchunk : chunk_list ([5] : List Int) WI_DETAILS_BATCH = [[5]] := by
    rw [chunk_list_cons _ _ (by simp) (by decide)]
    simp [chunk_list_nil, WI_DETAILS_BATCH]
  have hex : ∃ c ∈ chunk_list ([5] : List Int) WI_DETAILS_BATCH,
      isErr (svc_err_detail c) = true := by
    rw [hchunk]
    exact ⟨[5], by simp, rfl⟩
  exact ⟨hex, (error_propagation_amended svc_err_detail [5]).1 hex⟩

/-! ## Helper lemmas for the hierarchy resolver -/

theorem step_pair_measure (U : List Int) (st : HState) (p : Int × Int)
    (hU : p.2 ∈ U) : hier_measure U (step_pair st p) ≤ hier_measure U st := by
  by_cases hseen : p.2 ∈ st.seen
  · simp [hier_measure, step_pair, hseen]
  · have hdrop : ((U.filter (fun u => decide (u ∉ st.seen ++ [p.2]))).length)
        < (U.filter (fun u => decide (u ∉ st.seen))).length := by
      refine length_filter_lt_of_imp U _ _ ?_ p.2 hU ?_ ?_
      · intro a ha
        have h1 : a ∉ st.seen ++ [p.2] := of_decide_eq_true ha
        refine decide_eq_true ?_
        intro h2
        exact h1 (List.mem_append.mpr (Or.inl h2))
      · exact decide_eq_true hseen
      · refine decide_eq_false ?_
        intro h2
        exact h2 (List.mem_append.mpr (Or.inr (by simp)))
    simp only [hier_measure, step_pair, if_neg hseen]
    rw [List.length_append]
    simp only [List.length_singleton]
    omega

theorem foldl_step_pair_measure (U : List Int) :
    ∀ (pairs : List (Int × Int)), (∀ p ∈ pairs, p.2 ∈ U) →
      ∀ st, hier_measure U (pairs.foldl step_pair st) ≤ hier_measure U st := by
  intro pairs
  induction pairs with
  | nil => intro _ st; simp
  | cons p ps ih =>
    intro hp st
    rw [List.foldl_cons]
    have h1 := step_pair_measure U st p (hp p (by simp))
    have h2 := ih (fun q hq => hp q (List.mem_cons_of_mem p hq)) (step_pair st p)
    omega

theorem process_work_item_measure (U : List Int) (st : HState) (pid : Int)
    (rels : List WiRel) (hU : ∀ cid ∈ hier_targets rels, cid ∈ U) :
    hier_measure U (process_work_item st pid rels) ≤ hier_measure U st := by
  refine foldl_step_pair_measure U _ ?_ st
  intro p hp
  rcases List.mem_map.mp hp with ⟨cid, hcid, rfl⟩
  exact hU cid hcid

theorem process_batch_measure (items : Int → List WiRel) (U : List Int)
    (hU : ∀ pid, ∀ cid ∈ hier_targets (items pid), cid ∈ U) :
    ∀ (batch : List Int) (st : HState),
      hier_measure U (process_batch items st batch) ≤ hier_measure U st := by
  intro batch
  induction batch with
  | nil => intro st; simp [process_batch]
  | cons pid ps ih =>
    intro st
    rw [process_batch, List.foldl_cons]
    have h1 := process_work_item_measure U st pid (items pid) (hU pid)
    have h2 := ih (process_work_item st pid (items pid))
    rw [process_batch] at h2
    omega

theorem build_hierarchy_go_some (items : Int → List WiRel) (U : List Int)
    (hU : ∀ pid, ∀ cid ∈ hier_targets (items pid), cid ∈ U) :
    ∀ (fuel : Nat) (st : HState), hier_measure U st ≤ fuel →
      (build_hierarchy_go items fuel st).isSome = true := by
  intro fuel
  induction fuel with
  | zero =>
    intro st hm
    have hq : st.queue.length = 0 := by
      have := Nat.le_zero.mp hm
      unfold hier_measure at this
      omega
    have : st.queue.isEmpty = true := by
      rw [List.isEmpty_iff]
      exact List.eq_nil_of_length_eq_zero hq
    rw [build_hierarchy_go, if_pos this]
    rfl
  | succ fuel ih =>
    intro st hm
    by_cases hq : st.queue.isEmpty
    · rw [build_hierarchy_go, if_pos hq]
      rfl
    · rw [build_hierarchy_go, if_neg hq]
      have hqlen : 0 < st.queue.length := by
        rcases Nat.eq_zero_or_pos st.queue.length with h0 | h0
        · exact absurd (by rw [List.isEmpty_iff]
                           exact List.eq_nil_of_length_eq_zero h0) hq
        · exact h0
      refine ih _ ?_
      have hstep := process_batch_measure items U hU
        (st.queue.take (min 200 st.queue.length))
        { st with queue := st.queue.drop (min 200 st.queue.length) }
      have h2 : hier_measure U
          { st with queue := st.queue.drop (min 200 st.queue.length) }
          + min 200 st.queue.length = hier_measure U st := by
        unfold hier_measure
        simp only [List.length_drop]
        omega
      omega

theorem step_pair_nodup (st : HState) (p : Int × Int)
    (hnd : st.seen.Nodup) : (step_pair st p).seen.Nodup := by
  by_cases hseen : p.2 ∈ st.seen
  · simpa [step_pair, hseen] using hnd
  · simp only [step_pair, if_neg hseen]
    rw [List.nodup_append]
    refine ⟨hnd, List.nodup_singleton _, ?_⟩
    intro x hx hx2
    rw [List.mem_singleton.mp hx2] at hx
    exact hseen hx

theorem foldl_step_pair_nodup :
    ∀ (pairs : List (Int × Int)) (st : HState), st.seen.Nodup →
      (pairs.foldl step_pair st).seen.Nodup := by
  intro pairs
  induction pairs with
  | nil => intro st h; simpa using h
  | cons p ps ih =>
    intro st h
    rw [List.foldl_cons]
    exact ih (step_pair st p) (step_pair_nodup st p h)

theorem process_batch_nodup (items : Int → List WiRel) :
    ∀ (batch : List Int) (st : HState), st.seen.Nodup →
      (process_batch items st batch).seen.Nodup := by
  intro batch
  induction batch with
  | nil => intro st h; simpa [process_batch] using h
  | cons pid ps ih =>
    intro st h
    rw [process_batch, List.foldl_cons]
    have h1 : (process_work_item st pid (items pid)).seen.Nodup :=
      foldl_step_pair_nodup _ st h
    have h2 := ih (process_work_item st pid (items pid)) h1
    rw [process_batch] at h2
    exact h2

theorem build_hierarchy_go_nodup (items : Int → List WiRel) :
    ∀ (fuel : Nat) (st st' : HState),
      build_hierarchy_go items fuel st = some st' → st.seen.Nodup →
      st'.seen.Nodup := by
  intro fuel
  induction fuel with
  | zero =>
    intro st st' hrun hnd
    rw [build_hierarchy_go] at hrun
    by_cases hq : st.queue.isEmpty
    · rw [if_pos hq] at hrun
      cases hrun
      exact hnd
    · rw [if_neg hq] at hrun
      cases hrun
  | succ fuel ih =>
    intro st st' hrun hnd
    rw [build_hierarchy_go] at hrun
    by_cases hq : st.queue.isEmpty
    · rw [if_pos hq] at hrun
      cases hrun
      exact hnd
    · rw [if_neg hq] at hrun
      exact ih _ _ hrun (process_batch_nodup items _ _ hnd)

/-- Claim C3: for every relation graph — cyclic ones included — whose
forward-link targets all lie in a finite universe `U`, `build_hierarchy`
terminates within `|U| + 1` loop iterations, because every discovered ID
enters the seen set (which stays duplicate-free, so each ID is enqueued
for expansion at most once) and only unseen IDs are ever enqueued. -/
theorem build_hierarchy_terminating (items : Int → List WiRel) (root : Int)
    (U : List Int) (hU : ∀ pid, ∀ cid ∈ hier_targets (items pid), cid ∈ U) :
    (build_hierarchy items root (U.length + 1)).isSome = true
    ∧ ∀ st', build_hierarchy_state items root (U.length + 1) = some st' →
        st'.seen.Nodup := by
  have hm : hier_measure U ⟨fun _ => [], [root], [root]⟩ ≤ U.length + 1 := by
    unfold hier_measure
    have h1 : (U.filter (fun u => decide (u ∉ [root]))).length ≤ U.length :=
      List.length_filter_le _ _
    simp only [List.length_singleton]
    omega
  have h1 := build_hierarchy_go_some items U hU (U.length + 1) _ hm
  constructor
  · rw [build_hierarchy, build_hierarchy_state]
    rcases Option.isSome_iff_exists.mp h1 with ⟨st', hst'⟩
    rw [hst']
    rfl
  · intro st' hst'
    unfold build_hierarchy_state at hst'
    exact build_hierarchy_go_nodup items _ _ _ hst' (List.nodup_singleton root)

/-- Witness for C3: the two-node cyclic graph `1 → 2 → 1` satisfies the
finite-universe hypothesis with `U = [1, 2]`, and the traversal
terminates on it. -/
theorem build_hierarchy_terminating_witness :
    (∀ pid, ∀ cid ∈ hier_targets (cyc_items pid), cid ∈ ([1, 2] : List Int))
    ∧ (build_hierarchy cyc_items 1 (([1, 2] : List Int).length + 1)).isSome
        = true := by
  have hU : ∀ pid, ∀ cid ∈ hier_targets (cyc_items pid),
      cid ∈ ([1, 2] : List Int) := by
    intro pid cid h
    unfold cyc_items at h
    split_ifs at h
    · have he : hier_targets
          [{ rel := "System.LinkTypes.Hierarchy-Forward",
             url := some "wit/2" }] = [2] := by decide
      rw [he] at h
      rw [List.mem_singleton.mp h]
      simp
    · have he : hier_targets
          [{ rel := "System.LinkTypes.Hierarchy-Forward",
             url := some "wit/1" }] = [1] := by decide
      rw [he] at h
      rw [List.mem_singleton.mp h]
      simp
    · have he : hier_targets ([] : List WiRel) = [] := rfl
      rw [he] at h
      exact absurd h (List.not_mem_nil cid)
  exact ⟨hU, (build_hierarchy_terminating cyc_items 1 [1, 2] hU).1⟩

theorem hier_targets_append (l1 l2 : List WiRel) :
    hier_targets (l1 ++ l2) = hier_targets l1 ++ hier_targets l2 := by
  unfold hier_targets
  rw [List.filter_append, List.filterMap_append]

theorem hier_targets_skip (bad : WiRel) (hurl : link_target bad.url = none) :
    hier_targets [bad] = [] := by
  unfold hier_targets
  cases hb : bad.rel == "System.LinkTypes.Hierarchy-Forward"
  · simp [List.filter_cons, hb]
  · simp [List.filter_cons, hb, List.filterMap_cons, hurl]

theorem step_pair_seen_mono (st : HState) (p : Int × Int) (a : Int)
    (h : a ∈ st.seen) : a ∈ (step_pair st p).seen := by
  by_cases hseen : p.2 ∈ st.seen <;> simp [step_pair, hseen, h]

theorem step_pair_queue_mono (st : HState) (p : Int × Int) (a : Int)
    (h : a ∈ st.queue) : a ∈ (step_pair st p).queue := by
  by_cases hseen : p.2 ∈ st.seen <;> simp [step_pair, hseen, h]

theorem step_pair_seen_self (st : HState) (p : Int × Int) :
    p.2 ∈ (step_pair st p).seen := by
  by_cases hseen : p.2 ∈ st.seen <;> simp [step_pair, hseen]

theorem foldl_step_seen_mono :
    ∀ (pairs : List (Int × Int)) (st : HState) (a : Int), a ∈ st.seen →
      a ∈ (pairs.foldl step_pair st).seen := by
  intro pairs
  induction pairs with
  | nil => intro st a h; simpa using h
  | cons p ps ih =>
    intro st a h
    rw [List.foldl_cons]
    exact ih _ a (step_pair_seen_mono st p a h)

theorem foldl_step_queue_mono :
    ∀ (pairs : List (Int × Int)) (st : HState) (a : Int), a ∈ st.queue →
      a ∈ (pairs.foldl step_pair st).queue := by
  intro pairs
  induction pairs with
  | nil => intro st a h; simpa using h
  | cons p ps ih =>
    intro st a h
    rw [List.foldl_cons]
    exact ih _ a (step_pair_queue_mono st p a h)

theorem foldl_step_children (pid : Int) :
    ∀ (cids : List Int) (st : HState),
      ((cids.map (fun cid => (pid, cid))).foldl step_pair st).children pid
        = st.children pid ++ cids := by
  intro cids
  induction cids with
  | nil => intro st; simp
  | cons c cs ih =>
    intro st
    rw [List.map_cons, List.foldl_cons, ih]
    have hc : (step_pair st (pid, c)).children pid = st.children pid ++ [c] := by
      by_cases hseen : c ∈ st.seen <;> simp [step_pair, hseen]
    rw [hc, List.append_assoc]
    rfl

theorem foldl_step_enqueued (pid : Int) :
    ∀ (cids : List Int) (st : HState), ∀ cid ∈ cids,
      cid ∈ ((cids.map (fun c => (pid, c))).foldl step_pair st).seen
      ∧ (cid ∉ st.seen →
          cid ∈ ((cids.map (fun c => (pid, c))).foldl step_pair st).queue) := by
  intro cids
  induction cids with
  | nil =>
    intro st cid hc
    exact absurd hc (List.not_mem_nil cid)
  | cons c cs ih =>
    intro st cid hc
    rw [List.map_cons, List.foldl_cons]
    rcases List.mem_cons.mp hc with rfl | hcs
    · constructor
      · exact foldl_step_seen_mono _ _ _ (step_pair_seen_self st (pid, cid))
      · intro hns
        have hq : cid ∈ (step_pair st (pid, cid)).queue := by
          simp [step_pair, hns]
        exact foldl_step_queue_mono _ _ _ hq
    · constructor
      · exact (ih (step_pair st (pid, c)) cid hcs).1
      · intro hns
        by_cases h2 : cid ∈ (step_pair st (pid, c)).seen
        · have hcc : cid = c := by
            by_cases hcseen : c ∈ st.seen
            · rw [step_pair, if_pos hcseen] at h2
              exact absurd h2 hns
            · rw [step_pair, if_neg hcseen] at h2
              rcases List.mem_append.mp h2 with h3 | h3
              · exact absurd h3 hns
              · exact List.mem_singleton.mp h3
          subst hcc
          have hq : cid ∈ (step_pair st (pid, cid)).queue := by
            simp [step_pair, hns]
          exact foldl_step_queue_mono _ _ _ hq
        · exact (ih (step_pair st (pid, c)) cid hcs).2 h2

/-- Claim C5: a hierarchy-forward relation whose URL trailing path
segment does not parse as an integer (or whose URL is absent) is silently
skipped when a work item is processed: removing it from the relation list
changes nothing (no edge is recorded for it, no abort — processing is
total), while for any relation list all sibling relations with valid
numeric targets are recorded as edges of the parent in order, marked
seen, and enqueued when previously unseen. -/
theorem malformed_link_skipped (st : HState) (pid : Int)
    (pre post : List WiRel) (bad : WiRel) (rels : List WiRel)
    (hurl : link_target bad.url = none) :
    process_work_item st pid (pre ++ bad :: post)
      = process_work_item st pid (pre ++ post)
    ∧ (process_work_item st pid rels).children pid
        = st.children pid ++ hier_targets rels
    ∧ ∀ cid ∈ hier_targets rels,
        cid ∈ (process_work_item st pid rels).seen
        ∧ (cid ∉ st.seen → cid ∈ (process_work_item st pid rels).queue) := by
  refine ⟨?_, ?_, ?_⟩
  · unfold process_work_item
    have he : hier_targets (pre ++ bad :: post) = hier_targets (pre ++ post) := by
      have h1 : pre ++ bad :: post = (pre ++ [bad]) ++ post := by simp
      rw [h1, hier_targets_append, hier_targets_append,
        hier_targets_append, hier_targets_skip bad hurl, List.append_nil]
    rw [he]
  · exact foldl_step_children pid (hier_targets rels) st
  · intro cid hcid
    exact foldl_step_enqueued pid (hier_targets rels) st cid hcid

/-- Witness for C5: dropping a malformed forward link (trailing segment
"abc") from a relation list leaves the processing of the work item
unchanged. -/
theorem malformed_link_skipped_witness :
    link_target bad_rel.url = none
    ∧ process_work_item st_root1 1 ([good_rel] ++ bad_rel :: [])
        = process_work_item st_root1 1 ([good_rel] ++ []) := by
  have hurl : link_target bad_rel.url = none := by decide
  exact ⟨hurl,
    (malformed_link_skipped st_root1 1 [good_rel] [] bad_rel [] hurl).1⟩

/-! ## Helper lemmas for the metric aggregation -/

theorem py_round_int_intCast (n : Int) : py_round_int ((n : ℚ)) = n := by
  simp only [py_round_int]
  rw [Int.floor_intCast]
  have h0 : (n : ℚ) - (n : ℚ) = 0 := by ring
  rw [h0]
  norm_num

theorem final_states_contains (s : String) :
    FINAL_STATES.contains s
      = decide (s = "Closed" ∨ s = "Removed" ∨ s = "Resolved") := by
  by_cases h1 : s = "Closed" <;> by_cases h2 : s = "Removed" <;>
    by_cases h3 : s = "Resolved" <;>
    simp [FINAL_STATES, List.contains_cons, h1, h2, h3]

theorem length_filter_add_not {α : Type} (p : α → Bool) :
    ∀ l : List α,
      (l.filter p).length + (l.filter (fun a => !(p a))).length = l.length := by
  intro l
  induction l with
  | nil => rfl
  | cons a l ih =>
    cases hp : p a <;> simp [List.filter_cons, hp] <;> omega

/-- Claim C6: the aggregation classifies an item as closed exactly when
its state is Closed, Removed or Resolved; the open count is the total
minus the closed count and equals the number of non-final items; percent
complete is closed/total × 100 rounded to one decimal, and 0 for the
empty set; on states {Closed, Active, Active, Removed} it yields
open_cnt = 2, closed_cnt = 2, pct = 50.0. -/
theorem aggregation_counts (df : List Detail) :
    closed_cnt df = (df.filter (fun it =>
        decide (it.state = "Closed" ∨ it.state = "Removed"
          ∨ it.state = "Resolved"))).length
    ∧ open_cnt df = (df.filter (fun it =>
        !decide (it.state = "Closed" ∨ it.state = "Removed"
          ∨ it.state = "Resolved"))).length
    ∧ open_cnt df + closed_cnt df = df.length
    ∧ pct df = (if df.length = 0 then 0
        else py_round1 ((closed_cnt df : ℚ) / (df.length : ℚ) * 100))
    ∧ closed_cnt ex_details = 2 ∧ open_cnt ex_details = 2
    ∧ pct ex_details = 50 := by
  have hfc : df.filter (fun it => FINAL_STATES.contains it.state)
      = df.filter (fun it => decide (it.state = "Closed"
          ∨ it.state = "Removed" ∨ it.state = "Resolved")) := by
    refine List.filter_congr ?_
    intro it _
    exact final_states_contains it.state
  have h1 : closed_cnt df = (df.filter (fun it =>
      decide (it.state = "Closed" ∨ it.state = "Removed"
        ∨ it.state = "Resolved"))).length := by
    rw [closed_cnt, hfc]
  have hpart := length_filter_add_not
    (fun it : Detail => FINAL_STATES.contains it.state) df
  have hle : (df.filter (fun it => FINAL_STATES.contains it.state)).length
      ≤ df.length := List.length_filter_le _ _
  have hc2 : closed_cnt ex_details = 2 := by decide
  have hpct : pct ex_details = 50 := by
    rw [pct]
    have hlen : ex_details.length = 4 := rfl
    rw [hlen, hc2, if_pos (by omega)]
    have hq : (((2 : Nat) : ℚ)) / (((4 : Nat) : ℚ)) * 100 = ((50 : Int) : ℚ) := by
      norm_num
    rw [hq]
    have h10 : ((50 : Int) : ℚ) * 10 = ((500 : Int) : ℚ) := by norm_num
    rw [py_round1, h10, py_round_int_intCast]
    norm_num
  refine ⟨h1, ?_, ?_, ?_, hc2, by decide, hpct⟩
  · have hnc : df.filter (fun it => !(FINAL_STATES.contains it.state))
        = df.filter (fun it => !decide (it.state = "Closed"
            ∨ it.state = "Removed" ∨ it.state = "Resolved")) := by
      refine List.filter_congr ?_
      intro it _
      rw [final_states_contains it.state]
    rw [open_cnt, closed_cnt, ← hnc]
    omega
  · rw [open_cnt, closed_cnt]
    omega
  · rw [pct]
    by_cases h : df.length = 0 <;> simp [h]

theorem py_round1_intCast (n : Int) : py_round1 ((n : ℚ)) = (n : ℚ) := by
  rw [py_round1]
  have h10 : ((n : ℚ)) * 10 = (((n * 10 : Int)) : ℚ) := by push_cast; ring
  rw [h10, py_round_int_intCast]
  push_cast
  rw [mul_div_assoc]
  norm_num

/-- Claim C7: average cycle time is computed uniformly over every item of
the detail set — open or closed alike — as the mean of (last-changed
minus created) in whole days, rounded to one decimal, and 0 for the empty
set.  On a 10-day open item together with a 2-day closed item it averages
both (6.0), while the closed item alone would give 2.0. -/
theorem avg_cycle_uniform (df : List Detail) :
    avg_cycle df = (if df.isEmpty then 0
      else py_round1 ((((df.map cycle_days).map (fun i => (i : ℚ))).sum)
        / (df.length : ℚ)))
    ∧ avg_cycle [] = 0
    ∧ avg_cycle [ex_open_item, ex_closed_item] = 6
    ∧ avg_cycle [ex_closed_item] = 2
    ∧ cycle_days ex_open_item = 10 ∧ cycle_days ex_closed_item = 2 := by
  have hform : ∀ l : List Detail, avg_cycle l = (if l.isEmpty then 0
      else py_round1 ((((l.map cycle_days).map (fun i => (i : ℚ))).sum)
        / (l.length : ℚ))) := by
    intro l
    by_cases hdf : l = []
    · subst hdf
      simp [avg_cycle]
    · have h1 : (l.map cycle_days).isEmpty = false := by simp [hdf]
      have h2 : l.isEmpty = false := by simp [hdf]
      simp only [avg_cycle, h1, h2, List.length_map, Bool.false_eq_true,
        if_false]
  have hopen : cycle_days ex_open_item = 10 := by decide
  have hclosed : cycle_days ex_closed_item = 2 := by decide
  have h3 : avg_cycle [ex_open_item, ex_closed_item] = 6 := by
    rw [hform]
    have hmap : ([ex_open_item, ex_closed_item].map cycle_days)
        = [10, 2] := by decide
    rw [show ([ex_open_item, ex_closed_item] : List Detail).isEmpty = false
      from rfl]
    rw [if_neg (by simp), hmap]
    have hsum : ((([10, 2] : List Int).map (fun i => (i : ℚ))).sum)
        / (([ex_open_item, ex_closed_item] : List Detail).length : ℚ)
        = ((6 : Int) : ℚ) := by
      simp [List.sum_cons]
      norm_num
    rw [hsum, py_round1_intCast]
    norm_num
  have h4 : avg_cycle [ex_closed_item] = 2 := by
    rw [hform]
    have hmap : ([ex_closed_item].map cycle_days) = [2] := by decide
    rw [if_neg (by simp), hmap]
    have hsum : ((([2] : List Int).map (fun i => (i : ℚ))).sum)
        / (([ex_closed_item] : List Detail).length : ℚ) = ((2 : Int) : ℚ) := by
      simp [List.sum_cons]
    rw [hsum, py_round1_intCast]
    norm_num
  exact ⟨hform df, by simp [avg_cycle], h3, h4, hopen, hclosed⟩

theorem resolve_one_precedence (a e t z : Option String) :
    resolve_one true a e t z
      = (if py_truthy a then a else if py_truthy e then e else py_or t z) := by
  by_cases ha : py_truthy a = true <;> by_cases he : py_truthy e = true <;>
    by_cases ht : py_truthy t = true <;>
    simp [resolve_one, py_or, ha, he, ht]

/-- Claim C8: for each of the organization URL, the project name and the
access token, credential resolution (with the secret store available)
returns the explicit CLI argument when it is present (Python-truthy),
otherwise the corresponding environment variable, otherwise the
secret-store value (top-level entry, else the azure-section entry) —
exactly this precedence, for every combination of present and absent
sources. -/
theorem credential_precedence
    (argOrg envOrg sTopOrg sAzOrg : Option String)
    (argProj envProj sTopProj sAzProj : Option String)
    (argPat envPat sTopPat sAzPat : Option String) :
    resolved_triple true argOrg envOrg sTopOrg sAzOrg
        argProj envProj sTopProj sAzProj argPat envPat sTopPat sAzPat
      = (if py_truthy argOrg then argOrg
         else if py_truthy envOrg then envOrg else py_or sTopOrg sAzOrg,
         if py_truthy argProj then argProj
         else if py_truthy envProj then envProj else py_or sTopProj sAzProj,
         if py_truthy argPat then argPat
         else if py_truthy envPat then envPat else py_or sTopPat sAzPat) := by
  rw [resolved_triple, resolve_one_precedence, resolve_one_precedence,
    resolve_one_precedence]

/-- Claim C9: when, after layered resolution, any of the organization
URL, project or access token is still missing (Python-falsy), the CLI
raises `SystemExit` before any network call: the run yields the
user-facing message (which names the sources, the missing ones included)
with zero HTTP requests issued, the message goes to standard error, and
the process exit code is nonzero. -/
theorem missing_credentials_fatal
    (triple : Option String × Option String × Option String)
    (h : ¬(py_truthy triple.1 = true ∧ py_truthy triple.2.1 = true
          ∧ py_truthy triple.2.2 = true)) (fetchCalls : Nat) :
    resolve_credentials triple = .error missing_creds_msg
    ∧ main_network_calls triple fetchCalls = (.error missing_creds_msg, 0)
    ∧ stderr_of (resolve_credentials triple) = [missing_creds_msg]
    ∧ exit_code (resolve_credentials triple) = 1
    ∧ "organization_url".data <:+: missing_creds_msg.data
    ∧ "project".data <:+: missing_creds_msg.data
    ∧ "pat".data <:+: missing_creds_msg.data := by
  have herr : resolve_credentials triple = .error missing_creds_msg := by
    rw [resolve_credentials, if_neg]
    intro hall
    rcases Bool.and_eq_true_iff.mp hall with ⟨h12, h3⟩
    rcases Bool.and_eq_true_iff.mp h12 with ⟨h1, h2⟩
    exact h ⟨h1, h2, h3⟩
  refine ⟨herr, ?_, ?_, ?_, by decide, by decide, by decide⟩
  · rw [main_network_calls, herr]
  · rw [herr]; rfl
  · rw [herr]; rfl

/-- Witness for C9: with every source absent the resolution fails with
the fatal message, zero network calls, stderr output and exit code 1. -/
theorem missing_credentials_fatal_witness :
    ¬(py_truthy (none : Option String) = true
      ∧ py_truthy (none : Option String) = true
      ∧ py_truthy (none : Option String) = true)
    ∧ resolve_credentials (none, none, none) = .error missing_creds_msg
    ∧ main_network_calls (none, none, none) 7 = (.error missing_creds_msg, 0)
    ∧ exit_code (resolve_credentials (none, none, none)) = 1 := by
  have h : ¬(py_truthy (none : Option String) = true
      ∧ py_truthy (none : Option String) = true
      ∧ py_truthy (none : Option String) = true) := by
    intro hc
    exact absurd hc.1 (by decide)
  have happ := missing_credentials_fatal (none, none, none) h 7
  exact ⟨h, happ.1, happ.2.1, happ.2.2.2.1⟩

/-! ## Helper lemmas for `flatten` -/

theorem flatten_potential_append (rank : Int → Nat) (B : Nat)
    (l1 l2 : List Int) : flatten_potential rank B (l1 ++ l2)
      = flatten_potential rank B l1 + flatten_potential rank B l2 := by
  simp [flatten_potential]

theorem flatten_potential_eq_zero (rank : Int → Nat) (B : Nat)
    (stack : List Int) (h : flatten_potential rank B stack = 0) :
    stack = [] := by
  cases stack with
  | nil => rfl
  | cons x xs =>
    exfalso
    have hpos : 0 < (B + 1) ^ (rank x) := pow_pos (by omega) _
    simp only [flatten_potential, List.map_cons, List.sum_cons] at h
    omega

theorem flatten_potential_children_lt (rank : Int → Nat) (B : Nat)
    (l : List Int) (cid : Int) (hlen : l.length ≤ B)
    (hrk : ∀ b ∈ l, rank b < rank cid) :
    flatten_potential rank B l < (B + 1) ^ (rank cid) := by
  cases hrc : rank cid with
  | zero =>
    have hl : l = [] := by
      cases l with
      | nil => rfl
      | cons x xs =>
        have hx := hrk x (by simp)
        rw [hrc] at hx
        omega
    subst hl
    simp [flatten_potential]
  | succ r =>
    have hbound : ∀ y ∈ l.map (fun x => (B + 1) ^ (rank x)),
        y ≤ (B + 1) ^ r := by
      intro y hy
      rcases List.mem_map.mp hy with ⟨b, hb, rfl⟩
      have hrb := hrk b hb
      rw [hrc] at hrb
      exact Nat.pow_le_pow_right (by omega) (by omega)
    have hsum := List.sum_le_card_nsmul _ _ hbound
    rw [List.length_map, smul_eq_mul] at hsum
    have hpow : 0 < (B + 1) ^ r := pow_pos (by omega) r
    have h1 : l.length * (B + 1) ^ r ≤ B * (B + 1) ^ r :=
      Nat.mul_le_mul_right _ hlen
    have h2 : B * (B + 1) ^ r < (B + 1) * (B + 1) ^ r :=
      (Nat.mul_lt_mul_right hpow).mpr (by omega)
    have h3 : (B + 1) * (B + 1) ^ r = (B + 1) ^ (r + 1) := by
      rw [pow_succ]
      ring
    unfold flatten_potential
    omega

theorem flatten_go_loop : ∀ (f : Nat) (res : List Int),
    flatten_go loop_cmap f res [1] = none := by
  intro f
  induction f with
  | zero =>
    intro res
    rw [flatten_go]
    rfl
  | succ f ih =>
    intro res
    rw [flatten_go, dif_neg (by simp)]
    exact ih _

theorem flatten_go_acyclic (cmap : Int → List Int) (root : Int)
    (rank : Int → Nat) (B : Nat)
    (hrank : ∀ a b, Relation.TransGen (child_edge cmap) root a →
      child_edge cmap a b → rank b < rank a)
    (hB : ∀ a, Relation.TransGen (child_edge cmap) root a →
      (cmap a).length ≤ B) :
    ∀ (fuel : Nat) (res stack : List Int),
      flatten_potential rank B stack ≤ fuel →
      (∀ x ∈ stack, Relation.TransGen (child_edge cmap) root x) →
      (∀ x ∈ res, Relation.TransGen (child_edge cmap) root x) →
      (∀ x, Relation.TransGen (child_edge cmap) root x →
        x ∈ res ∨ ∃ a ∈ stack, a = x ∨ Relation.TransGen (child_edge cmap) a x) →
      ∃ out, flatten_go cmap fuel res stack = some out
        ∧ ∀ x, x ∈ out ↔ Relation.TransGen (child_edge cmap) root x := by
  intro fuel
  induction fuel with
  | zero =>
    intro res stack hpot hstack hres hcomp
    have hst : stack = [] :=
      flatten_potential_eq_zero rank B stack (Nat.le_zero.mp hpot)
    subst hst
    refine ⟨res, by rw [flatten_go]; rfl, ?_⟩
    intro x
    constructor
    · exact hres x
    · intro hx
      rcases hcomp x hx with hxr | ⟨a, ha, _⟩
      · exact hxr
      · exact absurd ha (List.not_mem_nil a)
  | succ fuel ih =>
    intro res stack hpot hstack hres hcomp
    by_cases hst : stack = []
    · subst hst
      refine ⟨res, by rw [flatten_go, dif_pos rfl], ?_⟩
      intro x
      constructor
      · exact hres x
      · intro hx
        rcases hcomp x hx with hxr | ⟨a, ha, _⟩
        · exact hxr
        · exact absurd ha (List.not_mem_nil a)
    · have hLmem : stack.getLast hst ∈ stack := List.getLast_mem hst
      have hLreach : Relation.TransGen (child_edge cmap) root
          (stack.getLast hst) := hstack _ hLmem
      have hsplit := List.dropLast_append_getLast hst
      have hpot2 : flatten_potential rank B
          (stack.dropLast ++ cmap (stack.getLast hst)) ≤ fuel := by
        have hkids : flatten_potential rank B (cmap (stack.getLast hst))
            < (B + 1) ^ (rank (stack.getLast hst)) := by
          refine flatten_potential_children_lt rank B _ _ (hB _ hLreach) ?_
          intro b hb
          exact hrank _ b hLreach hb
        have hold : flatten_potential rank B stack
            = flatten_potential rank B stack.dropLast
              + (B + 1) ^ (rank (stack.getLast hst)) := by
          conv_lhs => rw [← hsplit]
          rw [flatten_potential_append]
          simp [flatten_potential]
        rw [flatten_potential_append]
        omega
      have hstack2 : ∀ x ∈ stack.dropLast ++ cmap (stack.getLast hst),
          Relation.TransGen (child_edge cmap) root x := by
        intro x hx
        rcases List.mem_append.mp hx with hx1 | hx2
        · exact hstack x ((List.dropLast_sublist stack).subset hx1)
        · exact Relation.TransGen.tail hLreach hx2
      have hres2 : ∀ x ∈ res ++ [stack.getLast hst],
          Relation.TransGen (child_edge cmap) root x := by
        intro x hx
        rcases List.mem_append.mp hx with hx1 | hx2
        · exact hres x hx1
        · rw [List.mem_singleton.mp hx2]
          exact hLreach
      have hcomp2 : ∀ x, Relation.TransGen (child_edge cmap) root x →
          x ∈ res ++ [stack.getLast hst]
          ∨ ∃ a ∈ stack.dropLast ++ cmap (stack.getLast hst),
              a = x ∨ Relation.TransGen (child_edge cmap) a x := by
        intro x hx
        rcases hcomp x hx with hxr | ⟨a, ha, hax⟩
        · exact Or.inl (List.mem_append.mpr (Or.inl hxr))
        · rw [← hsplit] at ha
          rcases List.mem_append.mp ha with ha1 | ha2
          · exact Or.inr ⟨a, List.mem_append.mpr (Or.inl ha1), hax⟩
          · have haL : a = stack.getLast hst := List.mem_singleton.mp ha2
            subst haL
            rcases hax with rfl | htrans
            · exact Or.inl (List.mem_append.mpr (Or.inr (by simp)))
            · rcases Relation.TransGen.head'_iff.mp htrans with ⟨b, hab, hbx⟩
              rcases Relation.reflTransGen_iff_eq_or_transGen.mp hbx
                with rfl | htx
              · exact Or.inr ⟨x, List.mem_append.mpr (Or.inr hab), Or.inl rfl⟩
              · exact Or.inr ⟨b, List.mem_append.mpr (Or.inr hab),
                  Or.inr htx⟩
      rcases ih (res ++ [stack.getLast hst])
        (stack.dropLast ++ cmap (stack.getLast hst))
        hpot2 hstack2 hres2 hcomp2 with ⟨out, hout, hiff⟩
      refine ⟨out, ?_, hiff⟩
      rw [flatten_go, dif_neg hst]
      exact hout

/-- Claim C10: for every adjacency map whose subgraph reachable from the
root is acyclic — witnessed by a rank function decreasing along every
edge out of the root or a reachable node, with branching bounded by `B` —
`flatten` terminates (within fuel bounded by the initial stack potential)
and returns a list whose element set is exactly the IDs reachable from
the root by one or more parent→child edges.  `flatten` performs no
seen-set deduplication, and acyclicity is required: on the self-loop
adjacency, no amount of fuel finishes the loop. -/
theorem flatten_reachable (cmap : Int → List Int) (root : Int)
    (rank : Int → Nat) (B fuel : Nat)
    (hrank : ∀ a b, (a = root ∨ Relation.TransGen (child_edge cmap) root a) →
      child_edge cmap a b → rank b < rank a)
    (hB : ∀ a, (a = root ∨ Relation.TransGen (child_edge cmap) root a) →
      (cmap a).length ≤ B)
    (hfuel : flatten_potential rank B (cmap root) ≤ fuel) :
    (∃ out, flatten cmap root fuel = some out
      ∧ ∀ x, x ∈ out ↔ Relation.TransGen (child_edge cmap) root x)
    ∧ (∀ f : Nat, flatten loop_cmap 1 f = none) := by
  constructor
  · have hstack0 : ∀ x ∈ cmap root,
        Relation.TransGen (child_edge cmap) root x := by
      intro x hx
      exact Relation.TransGen.single hx
    have hres0 : ∀ x ∈ ([] : List Int),
        Relation.TransGen (child_edge cmap) root x := by
      intro x hx
      exact absurd hx (List.not_mem_nil x)
    have hcomp0 : ∀ x, Relation.TransGen (child_edge cmap) root x →
        x ∈ ([] : List Int) ∨ ∃ a ∈ cmap root, a = x
          ∨ Relation.TransGen (child_edge cmap) a x := by
      intro x hx
      rcases Relation.TransGen.head'_iff.mp hx with ⟨b, hrb, hbx⟩
      rcases Relation.reflTransGen_iff_eq_or_transGen.mp hbx with rfl | htx
      · exact Or.inr ⟨x, hrb, Or.inl rfl⟩
      · exact Or.inr ⟨b, hrb, Or.inr htx⟩
    exact flatten_go_acyclic cmap root rank B
      (fun a b har heb => hrank a b (Or.inr har) heb)
      (fun a har => hB a (Or.inr har))
      fuel [] (cmap root) hfuel hstack0 hres0 hcomp0
  · intro f
    rw [flatten]
    exact flatten_go_loop f []

/-- Witness for C10: on the adjacency 1 → {2, 3}, 2 → {4} with its rank
function, `flatten` from root 1 succeeds and its output is exactly the
set of reachable IDs. -/
theorem flatten_reachable_witness :
    (∀ a b, (a = 1 ∨ Relation.TransGen (child_edge ex_cmap) 1 a) →
      child_edge ex_cmap a b → ex_rank b < ex_rank a)
    ∧ (∃ out, flatten ex_cmap 1 10 = some out
        ∧ ∀ x, x ∈ out ↔ Relation.TransGen (child_edge ex_cmap) 1 x) := by
  have hrank : ∀ a b, (a = 1 ∨ Relation.TransGen (child_edge ex_cmap) 1 a) →
      child_edge ex_cmap a b → ex_rank b < ex_rank a := by
    intro a b _ hb
    unfold child_edge ex_cmap at hb
    split_ifs at hb with h1 h2
    · subst h1
      rcases List.mem_cons.mp hb with rfl | hb2
      · decide
      · rw [List.mem_singleton.mp hb2]
        decide
    · subst h2
      rw [List.mem_singleton.mp hb]
      decide
    · exact absurd hb (List.not_mem_nil b)
  have hB : ∀ a, (a = 1 ∨ Relation.TransGen (child_edge ex_cmap) 1 a) →
      (ex_cmap a).length ≤ 2 := by
    intro a _
    unfold ex_cmap
    split_ifs <;> simp
  have hfuel : flatten_potential ex_rank 2 (ex_cmap 1) ≤ 10 := by decide
  exact ⟨hrank, (flatten_reachable ex_cmap 1 ex_rank 2 10 hrank hB hfuel).1⟩
